import Mathlib

/-!
Verification of the division core (src/algorithms/div.rs) of an
arbitrary-precision unsigned integer library, for the 64-bit digit build
(feature u64_digit).  Big integers are sequences of 64-bit digits, least
significant first; canonical form has no trailing zero digit and zero is
the empty sequence.  Functions from the representation layer that are not
part of this repository (add/sub with carry, full multiply, comparison,
shifts, leading/trailing zero counts, the one-digit modular inverse) are
modelled from the spec; everything else is translated from the source,
including its literal buffer and slice manipulations.
-/

set_option maxRecDepth 100000
set_option maxHeartbeats 1600000

namespace BigDiv

/-- Digit base, `2 ** 64`. -/
def B : ℕ := 2 ^ 64

/-- A big integer: least-significant-first list of digits (each below `B`). -/
abbrev Digits := List ℕ

/-- Numeric value of a digit sequence. -/
def val : Digits → ℕ
  | [] => 0
  | d :: rest => d + B * val rest

/-- Modelled from the spec: `normalize` strips trailing (most significant)
zero digits, producing the canonical form. -/
def normalize (l : Digits) : Digits :=
  (l.reverse.dropWhile (· == 0)).reverse

/-- Canonical form: no trailing zero digit (zero is the empty sequence). -/
def canonical (l : Digits) : Prop := l.getLast? ≠ some 0

instance (l : Digits) : Decidable (canonical l) := by
  unfold canonical; infer_instance

/-- Digit list of a value, fuel-driven so that it reduces definitionally. -/
def digitsAux : ℕ → ℕ → Digits
  | 0, _ => []
  | fuel + 1, v => if v = 0 then [] else v % B :: digitsAux fuel (v / B)

/-- Modelled from the spec: the canonical digit sequence of a value (used for
every representation-layer operation that returns a fresh `BigUint`). -/
def digitsOf (v : ℕ) : Digits := digitsAux v v

/-- Fixed-width digit list of a value (a buffer of exactly `n` digits). -/
def toDigitsFixed : ℕ → ℕ → Digits
  | 0, _ => []
  | n + 1, v => v % B :: toDigitsFixed n (v / B)

/-- Bit length, fuel-driven. -/
def bitLenAux : ℕ → ℕ → ℕ
  | 0, _ => 0
  | fuel + 1, v => if v = 0 then 0 else bitLenAux fuel (v / 2) + 1

/-- Number of bits of a value (0 for 0). -/
def bitLen (v : ℕ) : ℕ := bitLenAux v v

/-- Ceiling of log2 (0 for inputs below 2). -/
def ceilLog2 (n : ℕ) : ℕ := bitLen (n - 1)

/-- Number of digits of a value. -/
def nlen (v : ℕ) : ℕ := (digitsOf v).length

/-- Modelled from the spec: trailing zero bit count (fuel-driven). -/
def tzAux : ℕ → ℕ → ℕ
  | 0, _ => 0
  | fuel + 1, v => if v % 2 = 1 ∨ v = 0 then 0 else tzAux fuel (v / 2) + 1

/-- Trailing zero bits of a value (0 for 0). -/
def tzV (v : ℕ) : ℕ := tzAux v v

/-- Modelled from the spec: `leading_zeros` of a big integer, counted inside
its top digit. -/
def leadingZeros (x : Digits) : ℕ := 64 * x.length - bitLen (val x)

/-! ## Scalar Montgomery kernel (single 64-bit digit modulus) -/

/-- Upper half multiply, `floor (x * y / 2 ** 64)` (source `umulh`). -/
def umulh (x y : ℕ) : ℕ := x * y / B

/-- One Newton step for the inverse mod `2 ** 64`:
`w * (2 - q * w)` in wrapping 64-bit arithmetic. -/
def newton1 (q w : ℕ) : ℕ := (w * ((2 + B - q * w % B) % B)) % B

/-- Modelled from the spec: the one-digit modular inverse `mod_inv1`
(declared in the representation layer, not under src).  The seed `q` is
correct to 3 bits for odd `q`; five Newton iterations, each doubling the
number of correct bits, cover the 64 digit bits. -/
def mod_inv1 (q : ℕ) : ℕ :=
  newton1 q (newton1 q (newton1 q (newton1 q (newton1 q (q % B)))))

/-- Montgomery product `x * y * R ** -1 (mod q)` with `R = 2 ** 64`
(source `mont_mul`, u64_digit variant). -/
def mont_mul (x y q qinv : ℕ) : ℕ :=
  if x = 0 ∨ y = 0 then 0
  else
    let t := x * y
    let hi := t / B
    let lo := qinv * (t % B) % B
    let lo2 := q * lo / B
    if hi < lo2 then q - (lo2 - hi) else hi - lo2

/-- Montgomery square (source `mont_sqr`). -/
def mont_sqr (x q qinv : ℕ) : ℕ := mont_mul x x q qinv

/-- Montgomery multiply by one (source `mmul_one`). -/
def mmul_one (x q qinv : ℕ) : ℕ :=
  let lo := qinv * x % B
  let lo2 := q * lo / B
  if lo2 ≠ 0 then q - lo2 else lo2

/-- The 32-bit base. -/
def B32 : ℕ := 2 ^ 32

/-- Montgomery product with `R = 2 ** 32` (source `mont_mul_32`). -/
def mont_mul_32 (x y q qinv : ℕ) : ℕ :=
  if x = 0 ∨ y = 0 then 0
  else
    let t := x * y
    let hi := t / B32 % B32
    let lo := qinv * (t % B32) % B32
    let lo2 := q * lo / B32 % B32
    if hi < lo2 then q - (lo2 - hi) else hi - lo2

/-- Montgomery product with `R = 2 ** 48` (source `mont_mul_48`), literal
wrapping 64-bit arithmetic. -/
def mont_mul_48 (x y q qinv : ℕ) : ℕ :=
  let t := (x * 2 ^ 16 % B) * y
  let hi := t / B
  let lo := t % B / 2 ^ 16
  let lo1 := qinv * lo % B % 2 ^ 48
  let lo2 := (q * 2 ^ 16 % B) * lo1 / B
  ((hi + B - lo2) % B + (if hi < lo2 then q else 0)) % B

/-- Source `radix_power2_32`: intended `2 ** 64 (mod q)` for a 32-bit odd `q`,
with the literal wrapping/sign-bit arithmetic of the source. -/
def radix_power2_32 (q qinv : ℕ) : ℕ :=
  let res := 2 ^ 63 % q % B32
  let s := (res + B32 - q % B32) % B32
  let res2 := (res + s) % B32
  let l := if res2 ≥ 2 ^ 31 then q % B32 else 0
  (res2 + l) % B32

/-- Source `radix_power2` (u64_digit build): `2 ** 128 (mod q)` via three
size-dependent branches; the first branch uses the exact `u128` remainder
(the floating point code after its `return` is unreachable). -/
def radix_power2 (q qinv : ℕ) : ℕ :=
  if q / 2 ^ 48 > 0 then
    let rm := 2 ^ 64 % q
    rm * rm % q
  else if q / 2 ^ 32 > 0 then
    let res := 2 ^ 60 % q
    let res2 := mont_mul_48 res res q qinv
    let res3 := mont_mul_48 res2 res2 q qinv
    mont_sqr res3 q qinv
  else
    let res := radix_power2_32 (q % B32) (qinv % B32)
    let res2 := mont_mul_32 res res (q % B32) (qinv % B32)
    mont_sqr res2 q qinv

/-- Source `calc_bitmap` loop body, fuel-driven: while `p > 5`, record
whether `p` is even at bit `j`, then `p := p / 2 + 1`. -/
def calcBitmapAux : ℕ → ℕ → ℕ → ℕ → ℕ × ℕ × ℕ
  | 0, p, j, bm => (j, p, bm)
  | fuel + 1, p, j, bm =>
      if p > 5 then
        calcBitmapAux fuel (p / 2 + 1) (j + 1) (bm + if p % 2 = 0 then 2 ^ j else 0)
      else (j, p, bm)

/-- Source `calc_bitmap`. -/
def calc_bitmap (n : ℕ) : ℕ × ℕ × ℕ := calcBitmapAux n n 0 0

/-- Bitmap-controlled powering loop of source `radix_power`
(for `i in (0..j).rev()`). -/
def radixPowerLoop (q qinv bm : ℕ) : ℕ → ℕ → ℕ
  | 0, pow => pow
  | i + 1, pow =>
      if bm.testBit i then
        radixPowerLoop q qinv bm i (mont_mul (mmul_one pow q qinv) pow q qinv)
      else
        radixPowerLoop q qinv bm i (mont_sqr pow q qinv)

/-- Source `radix_power`: intended `R ** n (mod q)` with `R = 2 ** 64`. -/
def radix_power (n q qinv : ℕ) : ℕ :=
  let r2 := radix_power2 q qinv
  if n = 2 then r2
  else
    let ptmp := mont_sqr r2 q qinv
    if n = 3 then ptmp
    else
      let jpb := calc_bitmap n
      let pow := if jpb.2.1 = 4 then mont_mul r2 ptmp q qinv else mont_sqr ptmp q qinv
      radixPowerLoop q qinv jpb.2.2 jpb.1 pow

example : (16357897499336320049 * mod_inv1 16357897499336320049) % B = 1 := by decide
example : radix_power 17 16357897499336320049 (mod_inv1 16357897499336320049)
    = 8502984233828494641 := by decide
example : radix_power 2 2147549185 (mod_inv1 2147549185) = 2145976290 := by decide

/-! ## Scalar remainder variants and quotient reconstruction -/

/-- Shared digit-folding recurrence of `remainder_a` (and of the first
`n - 1` digits of `remainder_b`): subtract the running carry (with borrow),
multiply by the inverse, add the borrow, keep the upper product half. -/
def remAFold (q qinv : ℕ) : Digits → ℕ → ℕ
  | [], cy => cy
  | xi :: rest, cy =>
      let bw : ℕ := if xi < cy then 1 else 0
      let tmp := (xi + B - cy % B) % B
      let tmp2 := (tmp * qinv % B + bw) % B
      remAFold q qinv rest (umulh tmp2 q)

/-- Source `remainder_a`. -/
def remainder_a (x : Digits) (q qinv : ℕ) : ℕ :=
  if q = 1 then 0
  else
    let cy := remAFold q qinv x 0
    let cy2 := if cy > 0 then q - cy else cy
    mont_mul cy2 (radix_power (x.length + 1) q qinv) q qinv

/-- Source `remainder_a_u2`: two-limb-interleaved variant. -/
def remainder_a_u2 (x : Digits) (q qinv : ℕ) : ℕ :=
  let n := x.length
  if n < 2 then remainder_a x q qinv
  else if q = 1 then 0
  else
    let n2 := (n + n % 2) / 2
    let step := fun (cys : ℕ × ℕ) (i : ℕ) =>
      let x0 := x.getD i 0
      let xin2 := if i + n2 < n then x.getD (i + n2) 0 else 0
      let bw0 : ℕ := if x0 < cys.1 then 1 else 0
      let bw1 : ℕ := if xin2 < cys.2 then 1 else 0
      let tmp0 := ((x0 + B - cys.1 % B) % B * qinv % B + bw0) % B
      let tmp1 := ((xin2 + B - cys.2 % B) % B * qinv % B + bw1) % B
      (umulh tmp0 q, umulh tmp1 q)
    let cys := (List.range n2).foldl step (0, 0)
    let cy0 := if cys.1 > 0 then q - cys.1 else cys.1
    let cy1 := if cys.2 > 0 then q - cys.2 else cys.2
    let scale := radix_power (n2 + 1) q qinv
    let cy1b := mont_mul cy1 scale q qinv
    let s := (cy0 + cy1b) % B
    let s2 := if s < cy1b ∨ s ≥ q then (s + B - q % B) % B else s
    mont_mul s2 scale q qinv

/-- Source `remainder_b`: last-digit-specialized variant. -/
def remainder_b (x : Digits) (q qinv : ℕ) : ℕ :=
  let n := x.length
  if n = 0 then 0
  else if n = 1 then x.getD 0 0 % q
  else
    let cy := remAFold q qinv (x.take (n - 1)) 0
    let xi := x.getD (n - 1) 0
    let tmp := (xi + B - cy % B) % B
    let lo := if cy > xi then (tmp + q) % B else tmp
    mont_mul lo (radix_power n q qinv) q qinv

/-- Digit loop of source `quotient_odd`, returning the quotient digits and
the final carry (asserted zero in the source). -/
def quotOddFold (q qinv : ℕ) : Digits → ℕ → ℕ → Digits × ℕ
  | [], _, cy => ([], cy)
  | xi :: rest, bw, cy =>
      let tmp := (xi + 2 * B - bw - cy % B) % B
      let bw2 : ℕ := if tmp > xi then 1 else 0
      let tmp2 := tmp * qinv % B
      let res := quotOddFold q qinv rest bw2 (umulh tmp2 q)
      (tmp2 :: res.1, res.2)

/-- Source `quotient_odd`: in-place quotient reconstruction, normalized. -/
def quotient_odd (x : Digits) (r q qinv : ℕ) : Digits :=
  normalize (quotOddFold q qinv x 0 r).1

/-- Source `div_rem_digit`: quotient digits and remainder for a one-digit
divisor. -/
def div_rem_digit (x : Digits) (q : ℕ) : Digits × ℕ :=
  if val x = 0 then (x, 0)
  else if x.length = 1 then (normalize [x.getD 0 0 / q], x.getD 0 0 % q)
  else if q % 2 = 1 then
    let qinv := mod_inv1 q
    let r := remainder_a_u2 x q qinv
    (quotient_odd x r q qinv, r)
  else
    let t := tzV q
    let bsave := x.getD 0 0 % 2 ^ t
    let qd := q / 2 ^ t
    let qinvd := mod_inv1 qd
    let x2 := digitsOf (val x / 2 ^ t)
    let rd := remainder_b x2 qd qinvd
    (quotient_odd x2 rd qd qinvd, rd * 2 ^ t + bsave)

/-- Source `rem_digit`. -/
def rem_digit (x : Digits) (q : ℕ) : ℕ :=
  if val x = 0 then 0
  else if x.length = 1 then x.getD 0 0 % q
  else if q % 2 = 1 then remainder_a_u2 x q (mod_inv1 q)
  else
    let t := tzV q
    let bsave := x.getD 0 0 % 2 ^ t
    let qd := q / 2 ^ t
    remainder_b (digitsOf (val x / 2 ^ t)) qd (mod_inv1 qd) * 2 ^ t + bsave

/-- Source `div_digit`. -/
def div_digit (x : Digits) (q : ℕ) : Digits :=
  if val x = 0 then x
  else if x.length = 1 then normalize [x.getD 0 0 / q]
  else if q % 2 = 1 then
    let qinv := mod_inv1 q
    quotient_odd x (remainder_a_u2 x q qinv) q qinv
  else
    let t := tzV q
    let qd := q / 2 ^ t
    let qinvd := mod_inv1 qd
    let x2 := digitsOf (val x / 2 ^ t)
    quotient_odd x2 (remainder_b x2 qd qinvd) qd qinvd

example : rem_digit (digitsOf (2 ^ 154 + 77)) 12345 = (2 ^ 154 + 77) % 12345 := by decide
example : div_rem_digit (digitsOf (2 ^ 154 + 77)) 12344
    = (digitsOf ((2 ^ 154 + 77) / 12344), (2 ^ 154 + 77) % 12344) := by decide

-- The scalar scenario the source's own tests assert: x = 2^977 - 1,
-- q = 16357897499336320049; the computed remainder matches the value in the
-- test and the computed quotient reconstructs x exactly.
example :
    remainder_a_u2 (digitsOf (2 ^ 977 - 1)) 16357897499336320049
      (mod_inv1 16357897499336320049) = 8623243291871090711
    ∧ val (quotient_odd (digitsOf (2 ^ 977 - 1)) 8623243291871090711
          16357897499336320049 (mod_inv1 16357897499336320049))
        * 16357897499336320049 + 8623243291871090711 = 2 ^ 977 - 1 := by
  constructor <;> decide

/-! ## Knuth long division (Algorithm D) and binary division -/

/-- Correction loop of Algorithm D: while the product exceeds the remainder
window, decrement the guess and subtract the divisor from the product.
Structural recursion on the guess, which decreases by one each step. -/
def knuthCorr (b window : ℕ) : ℕ → ℕ → ℕ × ℕ
  | 0, prod => (0, prod)
  | q0 + 1, prod =>
      if prod > window then knuthCorr b window q0 (prod - b)
      else (q0 + 1, prod)

/-- Main loop of Algorithm D over quotient digit positions, most significant
first; `a` and `q` are carried as values (the source buffers hold exactly
these values at every step). -/
def knuthLoop (bv bn blen : ℕ) : ℕ → ℕ → ℕ → ℕ × ℕ
  | 0, a, q => (q, a)
  | j + 1, a, q =>
      let aLen := nlen a
      let offset := j + blen - 1
      if offset ≥ aLen then knuthLoop bv bn blen j a q
      else
        let q0 := (div_rem_digit (digitsOf (a / B ^ offset)) bn).1
        let corr := knuthCorr bv (a / B ^ j) (val q0) (bv * val q0)
        knuthLoop bv bn blen j (a - corr.2 * B ^ j) (q + corr.1 * B ^ j)

/-- Source `div_rem_knuth` (zero divisor, a panic in the source, is mapped
to the junk value `([], [])`; every caller checks the divisor first). -/
def div_rem_knuth (u d : Digits) : Digits × Digits :=
  if val d = 0 then ([], [])
  else if val u = 0 then ([], [])
  else if d.length = 1 then
    if d.getD 0 0 = 1 then (u, [])
    else
      let qr := div_rem_digit u (d.getD 0 0)
      (qr.1, digitsOf qr.2)
  else
    match compare (val u) (val d) with
    | .lt => ([], u)
    | .eq => (digitsOf 1, [])
    | .gt =>
        let shift := 64 - bitLen (d.getLastD 0)
        let a0 := val u * 2 ^ shift
        let bv := val d * 2 ^ shift
        let bd := digitsOf bv
        let q_len := nlen a0 - bd.length + 1
        let qa := knuthLoop bv (bd.getLastD 0) bd.length q_len a0 0
        (normalize (toDigitsFixed q_len qa.1), digitsOf (qa.2 / 2 ^ shift))

/-- Bit loop of source `div_rem_binary`, for `i in (0..nshift+1).rev()`:
subtract-and-record when the running remainder strictly exceeds the shifted
divisor (the strict comparison is literal from the source). -/
def binLoop : ℕ → ℕ → ℕ → ℕ → ℕ × ℕ
  | 0, _, xloc, q => (q, xloc)
  | n + 1, yloc, xloc, q =>
      let step := if xloc > yloc then (xloc - yloc, q + 2 ^ n) else (xloc, q)
      binLoop n (if n > 0 then yloc / 2 else yloc) step.1 step.2

/-- Source `div_rem_binary` (zero divisor, an assert in the source, is
mapped to `([], [])`). -/
def div_rem_binary (x y : Digits) : Digits × Digits :=
  if val y = 0 then ([], [])
  else
    let x_len := x.length
    let y_len := y.length
    let max_len := max x_len y_len
    if x_len < y_len ∨ (x_len = y_len ∧ val x < val y) then ([], x)
    else
      let lz_x := leadingZeros x + (max_len - x_len) * 64
      let lz_y := leadingZeros y + (max_len - y_len) * 64
      let nshift := lz_y - lz_x
      let qx := binLoop (nshift + 1) (val y * 2 ^ nshift) (val x) 0
      (normalize (toDigitsFixed max_len qx.1), digitsOf qx.2)

example : div_rem_knuth (digitsOf (2 ^ 200 + 2 ^ 70 + 9)) (digitsOf (2 ^ 65 + 3))
    = (digitsOf ((2 ^ 200 + 2 ^ 70 + 9) / (2 ^ 65 + 3)),
       digitsOf ((2 ^ 200 + 2 ^ 70 + 9) % (2 ^ 65 + 3))) := by decide
example : div_rem_binary (digitsOf (2 ^ 130 + 55)) (digitsOf (2 ^ 66 + 21))
    = (digitsOf ((2 ^ 130 + 55) / (2 ^ 66 + 21)),
       digitsOf ((2 ^ 130 + 55) % (2 ^ 66 + 21))) := by decide
example : div_rem_binary [2] [1] = ([1], [1]) := by decide

-- The binary algorithm is correct on the headline division scenario
-- 364131549958466711308970009901738230041 / 19437941122649628431 (asserted
-- by test_div_rem_binary in the source).
example : div_rem_binary (digitsOf 364131549958466711308970009901738230041)
      (digitsOf 19437941122649628431)
    = (digitsOf 18733030811281269087, digitsOf 618006351061617544) := by decide

/-! ## Floating-point quotient estimate and the small-ratio fast path

The source computes `fquo = (bw as f64) * (lo as f64 / itmp as f64)` in IEEE
double precision.  All three operations are exactly specified (round to
nearest, ties to even; the multiplication by a power of two is exact), so the
estimate is modelled exactly as a dyadic rational `m / 2 ** s`. -/

/-- Round `num / den` to the nearest integer, ties to even. -/
def roundNE (num den : ℕ) : ℕ :=
  let q := num / den
  let r := num % den
  if 2 * r < den then q else if 2 * r > den then q + 1
  else if q % 2 = 0 then q else q + 1

/-- Round a 64-bit natural to the nearest IEEE double (53-bit significand),
ties to even; the result is an exact natural again. -/
def fl64 (n : ℕ) : ℕ :=
  if bitLen n ≤ 53 then n
  else roundNE n (2 ^ (bitLen n - 53)) * 2 ^ (bitLen n - 53)

/-- A nonnegative dyadic rational `m / 2 ** s`, the exact value of the f64
quotient estimate. -/
structure FQuo where
  m : ℕ
  s : ℕ
deriving DecidableEq

/-- Source `get_leading_bits`: the top 64 bits of `x` left justified, and
the bit length. -/
def get_leading_bits (x : Digits) : ℕ × ℕ :=
  let len := x.length
  let nshift := leadingZeros x
  let nwshift := nshift / 64
  let rembits := nshift % 64
  if nwshift ≥ len then (0, 0)
  else
    let i := len - 1 - nwshift
    let bits :=
      if rembits > 0 then
        (x.getD i 0 * 2 ^ rembits % B
          + if i > 0 then x.getD (i - 1) 0 / 2 ^ (64 - rembits) else 0) % B
      else x.getD i 0
    (bits, 64 * len - nshift)

/-- The exact value of the estimate `fquo` computed by
`div_rem_mont_inner` before dispatching to the fast path. -/
def fquoOf (x y : Digits) : FQuo :=
  let li := get_leading_bits x
  let tj := get_leading_bits y
  let sh := (li.2 - tj.2) % 64
  let a := fl64 li.1
  let b := fl64 tj.1
  let s := if a ≥ b then 52 else 53
  ⟨roundNE (a * 2 ^ s) b * 2 ^ sh, s⟩

/-- Correction loop of `div_rem_small`: at most 16 iterations (the fuel is
the literal `ncmax` bound of the source), adding or subtracting the divisor;
additions wrap in the fixed-width buffer of the dividend. -/
def smallLoop (yv wrap : ℕ) (isbw : Bool) : ℕ → ℕ → ℕ → ℕ × ℕ
  | 0, itmp, r => (itmp, r)
  | n + 1, itmp, r =>
      if isbw then
        if yv < r then smallLoop yv wrap isbw n (itmp - 1) ((r + yv) % wrap)
        else (itmp, r)
      else
        if r > yv then smallLoop yv wrap isbw n (itmp + 1) (r - yv)
        else (itmp, r)

/-- Source `div_rem_small`: one floating-estimate step with bounded
correction. -/
def div_rem_small (x y : Digits) (fquo : FQuo) : Digits × Digits :=
  let itmp := fquo.m / 2 ^ fquo.s
  let yinv := val y * itmp
  let n := x.length
  let bw := val x < yinv
  let r0 := (val x + B ^ n - yinv % B ^ n) % B ^ n
  let res := smallLoop (val y) (B ^ n) bw 16 itmp r0
  (digitsOf res.1, digitsOf res.2)

/-! ## Multi-digit Montgomery machinery -/

/-- Newton iteration of source `mod_invn`, all arithmetic mod `B ** len`. -/
def modInvnLoop (xv M : ℕ) : ℕ → ℕ → ℕ
  | 0, w => w
  | k + 1, w =>
      let tmp := xv * w % M
      let tmp2 := ((M - tmp) % M + 2) % M
      modInvnLoop xv M k (w * tmp2 % M)

/-- Source `mod_invn`: inverse of odd `x` mod `2 ** (64 * len x)`.  The
iteration count `log2_numbits` (computed with floating point `ln` in the
source) is the ceiling base-2 logarithm of the bit count. -/
def mod_invn (x : Digits) : ℕ :=
  let len := x.length
  let L := ceilLog2 (len * 64)
  modInvnLoop (val x) (B ^ len) (L - 6) (mod_inv1 (x.getD 0 0)) % B ^ len

/-- Source `mont_mul_n`: multi-digit Montgomery product, value level with the
literal buffer widths (`xlen` is the length of the first factor buffer,
`ylen` of the second, `qlen` of the modulus; the upper-half product is
truncated to the `xlen`-digit buffer it is written into). -/
def mont_mul_n (xv yv qv qinv xlen ylen qlen : ℕ) : ℕ :=
  let hw := max ylen qlen
  let t := xv * yv
  let lo := t % B ^ xlen
  let hi := t / B ^ xlen
  let lo1 := lo * qinv % B ^ xlen
  let lo2 := lo1 * qv / B ^ xlen % B ^ xlen
  let r := (hi % B ^ hw + B ^ hw - lo2) % B ^ hw
  if lo2 > hi % B ^ hw then (r + qv) % B ^ hw else r

/-- Source `mont_sqr_n`. -/
def mont_sqr_n (xv qv qinv xlen qlen : ℕ) : ℕ :=
  mont_mul_n xv xv qv qinv xlen xlen qlen

/-- Source `mmul_one_n`. -/
def mmul_one_n (xv qv qinv xlen : ℕ) : ℕ :=
  let z := xv * qinv % B ^ xlen
  let z2 := z * qv / B ^ xlen % B ^ xlen
  if z2 ≠ 0 then (qv + B ^ xlen - z2) % B ^ xlen else z2

/-- Bitmap-controlled powering loop of source `radix_power_n`. -/
def radixPowerNLoop (qv qinv qlen bm : ℕ) : ℕ → ℕ → ℕ
  | 0, pow => pow
  | i + 1, pow =>
      if bm.testBit i then
        let tmp := mmul_one_n pow qv qinv (nlen pow)
        radixPowerNLoop qv qinv qlen bm i
          (mont_mul_n tmp pow qv qinv (nlen tmp) (nlen pow) qlen)
      else
        radixPowerNLoop qv qinv qlen bm i (mont_sqr_n pow qv qinv (nlen pow) qlen)

/-- Source `radix_power_n`: intended `R ** n (mod q)` with `R = B ** len q`,
built from `R ** 2 (mod q)` (via Knuth division of `R ** 2 / 2`) by
Montgomery squarings and multiplications along the halving bitmap. -/
def radix_power_n (n : ℕ) (q : Digits) (qinv : ℕ) : ℕ :=
  let ln := q.length
  let r := 2 ^ 63 * B ^ (2 * ln - 1)
  let r2a := val (div_rem_knuth (digitsOf r) q).2 % B ^ ln
  let ov := r2a * 2 / B ^ ln
  let r2b := r2a * 2 % B ^ ln
  let r2 := if ov > 0 ∨ val q < r2b then (r2b + B ^ ln - val q % B ^ ln) % B ^ ln else r2b
  if n = 2 then r2
  else if n = 3 then mont_sqr_n r2 (val q) qinv (nlen r2) ln
  else
    let jpb := calc_bitmap n
    let r3 := mont_sqr_n r2 (val q) qinv (nlen r2) ln
    let pow :=
      if jpb.2.1 = 4 then mont_mul_n r2 r3 (val q) qinv (nlen r2) (nlen r3) ln
      else mont_sqr_n r3 (val q) qinv (nlen r3) ln
    radixPowerNLoop (val q) qinv ln jpb.2.2 jpb.1 pow

example : mod_invn [3, 5] = 302473215040834189734973682120621992619 := by decide
example : radix_power_n 17 (digitsOf 16357897499336320049)
    (mod_invn (digitsOf 16357897499336320049)) = 8502984233828494641 := by decide
example :
    let y := digitsOf 19131698241266917486964557061389713639
    let x := digitsOf (5 * 19131698241266917486964557061389713639)
    let f := fquoOf x y
    f.m / 2 ^ f.s = 4 ∧ decide (f.m < 2 ^ (54 + f.s)) = true := by decide

/-! ## The Montgomery division core and its per-context cache

The thread-local cache of the source holds the last divisor `w`, its inverse
`winv`, the base power `basepow`, and scratch buffers.  The scratch buffers
(`scratch`, `cy`, `tmp`) are resized and fully overwritten before every read
in the source, so only the three Montgomery-context fields are modelled. -/

/-- The per-context cache (source struct `Cache`). -/
structure Cache where
  w : Digits
  winv : ℕ
  basepow : ℕ
deriving DecidableEq

/-- The default (fresh thread-local) cache. -/
def initCache : Cache := ⟨[], 0, 0⟩

/-- Fold loop of `div_rem_mont_inner`: one Montgomery step per
divisor-length chunk of the dividend.  Literal to the source: the write-back
`lohi[..cl].copy_from_slice(&tmp2[..cl])` uses `cl = min(tmp.len(), lohi.len())
= w_len`, so only the low product half is stored and the high half of the
`lohi` buffer is never updated; the borrow feeds only a temporary that is
overwritten on the next iteration. -/
def montFold (winv wv Bw : ℕ) : List ℕ → ℕ × ℕ → ℕ × ℕ
  | [], lh => lh
  | ch :: rest, lh =>
      let tmp := (ch + Bw - lh.2 % Bw) % Bw
      let mull := tmp * winv % Bw
      montFold winv wv Bw rest (mull * wv % Bw, lh.2)

/-- Write `vals` into the buffer `l` starting at position `i`. -/
def setSlice (l : List ℕ) (i : ℕ) (vals : List ℕ) : List ℕ :=
  l.take i ++ vals ++ l.drop (i + vals.length)

/-- Zero the entries of `l` at positions `i ≤ k < i + cnt`. -/
def zeroRange (l : List ℕ) (i cnt : ℕ) : List ℕ :=
  l.mapIdx fun k a => if i ≤ k ∧ k < i + cnt then 0 else a

/-- Quotient pass of `div_rem_mont_inner`: Montgomery (Hensel) exact
division chunk by chunk.  Literal details: the carry digit receives the
borrow without propagation (`lohi[w_len] += bw`), and each quotient chunk is
written at slice offset `i`, the chunk enumeration index (`q[i..i + w_len]`),
so consecutive chunk writes overlap. -/
def montQuot (winv wv Bw w_len : ℕ) : List ℕ → ℕ → ℕ → List ℕ → List ℕ
  | [], _, _, ql => ql
  | ch :: rest, i, hi, ql =>
      let bw : ℕ := if hi > ch then 1 else 0
      let tmp := (ch + Bw - hi % Bw) % Bw
      let tmp2 := tmp * winv % Bw
      let prod := tmp2 * wv
      let hi2 := prod / Bw
      let hi3 := hi2 - hi2 % B + (hi2 % B + bw) % B
      let ql2 :=
        if i + w_len ≥ ql.length then
          ql.take (i + w_len) ++ List.replicate (i + w_len - ql.length) 0
        else ql
      montQuot winv wv Bw w_len rest (i + 1) hi3
        (setSlice ql2 i (toDigitsFixed w_len tmp2))

/-- Chunked Montgomery core of `div_rem_mont_inner`, after the cache lookup
fixed the inverse `winv` and base power `basepow`: fold the dividend, convert
the residue out of Montgomery form, then (when a quotient is requested)
regenerate the quotient chunkwise.  Literal to the source: the `!with_div`
early return misses the even-divisor remainder restoration, and the fold
loop never updates its high half (see `montFold` and `montQuot`). -/
def montCore (x v w : Digits) (nshift remSave winv basepow : ℕ)
    (withDiv withRem : Bool) : Option Digits × Option Digits :=
  let w_len := w.length
  let v_len := x.length
  let nchunks := v.length / w_len
  let chunks := (List.range nchunks).map fun k => val ((v.drop (k * w_len)).take w_len)
  let remd := v.drop (nchunks * w_len)
  let Bw := B ^ w_len
  let lh := montFold winv (val w) Bw chunks (0, 0)
  let j := remd.length
  let cyPre :=
    if j > 0 then
      let cv := val remd
      let cv2 := (cv + Bw - lh.2 % Bw) % Bw
      if lh.2 > cv then (cv2 + val w) % Bw else cv2
    else lh.1
  let cy := mont_mul_n cyPre basepow (val w) winv w_len (nlen basepow) w_len
  if withDiv = false then (none, some (digitsOf cy))
  else
    let ql0 : List ℕ := List.replicate (2 * w_len) 0
    let ql := montQuot winv (val w) Bw w_len chunks 0 (cy % Bw) ql0
    let ql2 := if j > 0 then zeroRange ql (v_len / w_len) j else ql
    let cyFin := if nshift > 0 then cy * 2 ^ nshift + remSave else cy
    (some (normalize ql2), if withRem then some (digitsOf cyFin) else none)

/-- The divisor-keyed cache lookup of `div_rem_mont_inner`: when the cached
divisor differs from the current odd divisor `w` (value equality of
canonical digit sequences), the inverse and base power are recomputed and
stored; otherwise the cached values are reused unchanged. -/
def cacheLookup (c : Cache) (w : Digits) : Cache :=
  if c.w ≠ w then ⟨w, mod_invn w, radix_power_n w.length w (mod_invn w)⟩ else c

/-- Source `div_rem_mont_inner`: equal-length fast path (floating estimate
with Knuth fallback), trailing-zero factoring, one-digit shortcut, and the
chunked Montgomery core with the divisor-keyed cache (regenerated exactly
when the cached divisor differs from the current one). -/
def div_rem_mont_inner (x y : Digits) (withDiv withRem : Bool) (c : Cache) :
    (Option Digits × Option Digits) × Cache :=
  if x.length = y.length then
    let f := fquoOf x y
    let qr := if f.m < 2 ^ (54 + f.s) then div_rem_small x y f else div_rem_knuth x y
    ((if withDiv then some qr.1 else none, if withRem then some qr.2 else none), c)
  else
    let nshift := tzV (val y)
    let remSave := val x % 2 ^ nshift
    let v := if nshift > 0 then digitsOf (val x / 2 ^ nshift) else x
    let w := if nshift > 0 then digitsOf (val y / 2 ^ nshift) else y
    if w.length = 1 then
      let qr := div_rem_digit v (w.getD 0 0)
      let remv := if nshift > 0 then qr.2 * 2 ^ nshift + remSave else qr.2
      ((if withDiv then some qr.1 else none,
        if withRem then some (digitsOf remv) else none), c)
    else
      let c2 := cacheLookup c w
      (montCore x v w nshift remSave c2.winv c2.basepow withDiv withRem, c2)

/-- The single user-facing error condition. -/
inductive DivErr where
  | divisionByZero
deriving DecidableEq

instance {ε α : Type} [DecidableEq ε] [DecidableEq α] : DecidableEq (Except ε α) := fun a b =>
  match a, b with
  | .error e, .error f =>
      if h : e = f then .isTrue (congrArg Except.error h)
      else .isFalse fun hh => h (Except.error.inj hh)
  | .ok x, .ok y =>
      if h : x = y then .isTrue (congrArg Except.ok h)
      else .isFalse fun hh => h (Except.ok.inj hh)
  | .error _, .ok _ => .isFalse fun hh => Except.noConfusion hh
  | .ok _, .error _ => .isFalse fun hh => Except.noConfusion hh

/-- Source `div_rem` (public), threading the per-context cache; a zero
divisor raises the DivisionByZero condition before anything else. -/
def div_rem (u d : Digits) (c : Cache) :
    Except DivErr ((Digits × Digits) × Cache) :=
  if val d = 0 then .error .divisionByZero
  else if val u = 0 then .ok (([], []), c)
  else if d.length = 1 then
    if d.getD 0 0 = 1 then .ok ((u, []), c)
    else
      let qr := div_rem_digit u (d.getD 0 0)
      .ok ((qr.1, digitsOf qr.2), c)
  else
    match compare (val u) (val d) with
    | .lt => .ok (([], u), c)
    | .eq => .ok ((digitsOf 1, []), c)
    | .gt =>
        let res := div_rem_mont_inner u d true true c
        .ok ((res.1.1.getD [], res.1.2.getD []), res.2)

/-- Source `div` (public). -/
def div (u d : Digits) (c : Cache) : Except DivErr (Digits × Cache) :=
  if val d = 0 then .error .divisionByZero
  else if val u = 0 then .ok ([], c)
  else if d.length = 1 then
    if d.getD 0 0 = 1 then .ok (u, c)
    else .ok (div_digit u (d.getD 0 0), c)
  else
    match compare (val u) (val d) with
    | .lt => .ok ([], c)
    | .eq => .ok (digitsOf 1, c)
    | .gt =>
        let res := div_rem_mont_inner u d true false c
        .ok (res.1.1.getD [], res.2)

/-- Source `rem` (public). -/
def rem (u d : Digits) (c : Cache) : Except DivErr (Digits × Cache) :=
  if val d = 0 then .error .divisionByZero
  else if val u = 0 then .ok ([], c)
  else if d.length = 1 then
    if d.getD 0 0 = 1 then .ok ([], c)
    else .ok (digitsOf (rem_digit u (d.getD 0 0)), c)
  else
    match compare (val u) (val d) with
    | .lt => .ok (u, c)
    | .eq => .ok ([], c)
    | .gt =>
        let res := div_rem_mont_inner u d false true c
        .ok (res.1.2.getD [], res.2)

/-- The public operation `divide(u, d)` of the spec, on a fresh context. -/
def divide (u d : Digits) : Except DivErr Digits := (div u d initCache).map (·.1)

/-- The public operation `remainder(u, d)` of the spec, on a fresh context. -/
def remainder (u d : Digits) : Except DivErr Digits := (rem u d initCache).map (·.1)

/-- The public operation `divide_with_remainder(u, d)` of the spec, on a
fresh context. -/
def divide_with_remainder (u d : Digits) : Except DivErr (Digits × Digits) :=
  (div_rem u d initCache).map (·.1)

/-- Cache states reachable by sequences of public divisions from a fresh
context (the contents "left behind by earlier divisions"). -/
inductive Reachable : Cache → Prop where
  | init : Reachable initCache
  | stepDivRem (u d : Digits) (c : Cache) (r : (Digits × Digits) × Cache) :
      Reachable c → div_rem u d c = .ok r → Reachable r.2
  | stepDiv (u d : Digits) (c : Cache) (r : Digits × Cache) :
      Reachable c → div u d c = .ok r → Reachable r.2
  | stepRem (u d : Digits) (c : Cache) (r : Digits × Cache) :
      Reachable c → rem u d c = .ok r → Reachable r.2

example : divide_with_remainder (digitsOf 123) (digitsOf 456)
    = .ok ([], digitsOf 123) := by decide

-- An equal-length pair from the source's test_rem_mont_cases: the full
-- pipeline takes the floating-estimate fast path and is correct here
-- (quotient 2, remainder = dividend - 2 * divisor).
example : (div_rem
      [15822916799710592856, 15351309180891002499, 3646136934699490843,
       12608419089971495303]
      [9581770756089366686, 15962422846560611805, 11446009532898238999,
       6228518608564063941] initCache).map (fun z => z.1)
    = .ok ([2], [15106119361241411100, 1873207561479330504,
                 17647606016322116076, 151381872843367419]) := by decide

/-! ## Canonical-form lemmas -/

lemma canonical_nil : canonical ([] : Digits) := by decide

lemma dropWhile_head?_ne (l : List ℕ) : (l.dropWhile (· == 0)).head? ≠ some 0 := by
  induction l with
  | nil => simp [List.dropWhile]
  | cons a t ih =>
      by_cases h : a = 0
      · simpa [List.dropWhile_cons, beq_iff_eq, h] using ih
      · simp [List.dropWhile_cons, beq_iff_eq, h]

lemma canonical_normalize (l : Digits) : canonical (normalize l) := by
  unfold canonical normalize
  rw [List.getLast?_eq_head?_reverse, List.reverse_reverse]
  exact dropWhile_head?_ne _

lemma digitsAux_eq_nil {fuel v : ℕ} (h : v ≤ fuel) : digitsAux fuel v = [] ↔ v = 0 := by
  cases fuel with
  | zero => simp [digitsAux]; omega
  | succ f =>
      unfold digitsAux
      by_cases h0 : v = 0 <;> simp [h0]

lemma digitsAux_canonical : ∀ fuel v, v ≤ fuel → canonical (digitsAux fuel v) := by
  intro fuel
  induction fuel with
  | zero => intro v _; exact canonical_nil
  | succ f ih =>
      intro v hv
      unfold digitsAux
      by_cases h0 : v = 0
      · rw [if_pos h0]; exact canonical_nil
      · rw [if_neg h0]
        have hB : 1 < B := by unfold B; norm_num
        have hlt : v / B < v := Nat.div_lt_self (Nat.pos_of_ne_zero h0) hB
        have hdiv : v / B ≤ f := by omega
        unfold canonical
        cases hnil : digitsAux f (v / B) with
        | nil =>
            have hv0 : v / B = 0 := (digitsAux_eq_nil hdiv).mp hnil
            have hvB : v < B := by
              by_contra hge
              push_neg at hge
              have : 0 < v / B := Nat.div_pos hge (by omega)
              omega
            have : v % B = v := Nat.mod_eq_of_lt hvB
            simp [this, h0]
        | cons b t =>
            rw [List.getLast?_cons_cons]
            have := ih (v / B) hdiv
            unfold canonical at this
            rwa [hnil] at this

lemma canonical_digitsOf (v : ℕ) : canonical (digitsOf v) :=
  digitsAux_canonical v v le_rfl

lemma canonical_digit1 : canonical (digitsOf 1) := canonical_digitsOf 1

lemma quotient_odd_canonical (x : Digits) (r q qinv : ℕ) :
    canonical (quotient_odd x r q qinv) := canonical_normalize _

lemma div_rem_digit_canonical (x : Digits) (q : ℕ) (hx : canonical x) :
    canonical (div_rem_digit x q).1 := by
  unfold div_rem_digit
  dsimp only
  split_ifs <;>
    first
      | exact hx
      | exact canonical_normalize _
      | exact quotient_odd_canonical _ _ _ _

lemma div_digit_canonical (x : Digits) (q : ℕ) (hx : canonical x) :
    canonical (div_digit x q) := by
  unfold div_digit
  dsimp only
  split_ifs <;>
    first
      | exact hx
      | exact canonical_normalize _
      | exact quotient_odd_canonical _ _ _ _

lemma div_rem_small_canonical (x y : Digits) (f : FQuo) :
    canonical (div_rem_small x y f).1 ∧ canonical (div_rem_small x y f).2 :=
  ⟨canonical_digitsOf _, canonical_digitsOf _⟩

lemma div_rem_knuth_canonical (u d : Digits) (hu : canonical u) :
    canonical (div_rem_knuth u d).1 ∧ canonical (div_rem_knuth u d).2 := by
  unfold div_rem_knuth
  dsimp only
  split_ifs
  · exact ⟨canonical_nil, canonical_nil⟩
  · exact ⟨canonical_nil, canonical_nil⟩
  · exact ⟨hu, canonical_nil⟩
  · exact ⟨div_rem_digit_canonical u _ hu, canonical_digitsOf _⟩
  · cases hcmp : compare (val u) (val d) with
    | lt => simp only [hcmp]; exact ⟨canonical_nil, hu⟩
    | eq => simp only [hcmp]; exact ⟨canonical_digit1, canonical_nil⟩
    | gt => simp only [hcmp]; exact ⟨canonical_normalize _, canonical_digitsOf _⟩

lemma montCore_canonical (x v w : Digits) (nshift remSave winv basepow : ℕ)
    (wd wr : Bool) :
    canonical ((montCore x v w nshift remSave winv basepow wd wr).1.getD []) ∧
    canonical ((montCore x v w nshift remSave winv basepow wd wr).2.getD []) := by
  unfold montCore
  cases wd with
  | false =>
      simp only [Bool.false_eq, eq_self_iff_true, if_true, if_pos]
      exact ⟨canonical_nil, canonical_digitsOf _⟩
  | true =>
      simp only [Bool.true_eq_false, if_false, if_neg, not_false_iff]
      refine ⟨canonical_normalize _, ?_⟩
      cases wr with
      | false => exact canonical_nil
      | true => exact canonical_digitsOf _

lemma inner_canonical (x y : Digits) (wd wr : Bool) (c : Cache) (hx : canonical x) :
    canonical ((div_rem_mont_inner x y wd wr c).1.1.getD []) ∧
    canonical ((div_rem_mont_inner x y wd wr c).1.2.getD []) := by
  unfold div_rem_mont_inner
  dsimp only
  split_ifs <;>
    (try exact montCore_canonical _ _ _ _ _ _ _ _ _) <;>
    cases wd <;> cases wr <;>
    simp only [Option.getD_some, Option.getD_none] <;>
    constructor <;>
    first
      | exact canonical_nil
      | exact (div_rem_small_canonical _ _ _).1
      | exact (div_rem_small_canonical _ _ _).2
      | exact (div_rem_knuth_canonical _ _ hx).1
      | exact (div_rem_knuth_canonical _ _ hx).2
      | exact canonical_digitsOf _
      | exact div_rem_digit_canonical _ _ hx
      | exact div_rem_digit_canonical _ _ (canonical_digitsOf _)

lemma div_ok_canonical (u d : Digits) (c : Cache) (hu : canonical u)
    (z : Digits × Cache) (hz : div u d c = .ok z) : canonical z.1 := by
  unfold div at hz
  split_ifs at hz <;>
    try (cases hz
         first
           | exact canonical_nil
           | exact hu
           | exact div_digit_canonical _ _ hu)
  cases hcmp : compare (val u) (val d) <;> simp only [hcmp] at hz <;> cases hz
  · exact canonical_nil
  · exact canonical_digit1
  · exact (inner_canonical u d true false c hu).1

lemma rem_ok_canonical (u d : Digits) (c : Cache) (hu : canonical u)
    (z : Digits × Cache) (hz : rem u d c = .ok z) : canonical z.1 := by
  unfold rem at hz
  split_ifs at hz <;>
    try (cases hz
         first
           | exact canonical_nil
           | exact canonical_digitsOf _)
  cases hcmp : compare (val u) (val d) <;> simp only [hcmp] at hz <;> cases hz
  · exact hu
  · exact canonical_nil
  · exact (inner_canonical u d false true c hu).2

lemma div_rem_ok_canonical (u d : Digits) (c : Cache) (hu : canonical u)
    (z : (Digits × Digits) × Cache) (hz : div_rem u d c = .ok z) :
    canonical z.1.1 ∧ canonical z.1.2 := by
  unfold div_rem at hz
  split_ifs at hz <;>
    try (cases hz
         first
           | exact ⟨canonical_nil, canonical_nil⟩
           | exact ⟨hu, canonical_nil⟩
           | exact ⟨div_rem_digit_canonical _ _ hu, canonical_digitsOf _⟩)
  cases hcmp : compare (val u) (val d) <;> simp only [hcmp] at hz <;> cases hz
  · exact ⟨canonical_nil, hu⟩
  · exact ⟨canonical_digit1, canonical_nil⟩
  · exact ⟨(inner_canonical u d true true c hu).1, (inner_canonical u d true true c hu).2⟩

/-- C4: each of the three public entry points divide, remainder and
divide_with_remainder fails with the DivisionByZero condition when the
divisor is zero, for every dividend, as its first action. -/
theorem c4_zero_divisor_fails (u d : Digits) (h : val d = 0) :
    divide u d = .error .divisionByZero ∧
    remainder u d = .error .divisionByZero ∧
    divide_with_remainder u d = .error .divisionByZero := by
  unfold divide remainder divide_with_remainder div rem div_rem
  rw [if_pos h, if_pos h, if_pos h]
  exact ⟨rfl, rfl, rfl⟩

/-- Witness for C4 at the concrete input `u = 7`, `d = 0`. -/
theorem c4_zero_divisor_fails_witness :
    divide [7] [] = .error .divisionByZero ∧
    remainder [7] [] = .error .divisionByZero ∧
    divide_with_remainder [7] [] = .error .divisionByZero :=
  c4_zero_divisor_fails [7] [] (by decide)

/-- C5: for canonical inputs with a nonzero divisor, every quotient and
remainder returned by divide, remainder and divide_with_remainder is again
canonical (no trailing zero digit, zero as the empty sequence). -/
theorem c5_results_canonical (u d : Digits) (hu : canonical u) (hd : canonical d)
    (h0 : val d ≠ 0) :
    (∀ q, divide u d = .ok q → canonical q) ∧
    (∀ r, remainder u d = .ok r → canonical r) ∧
    (∀ q r, divide_with_remainder u d = .ok (q, r) → canonical q ∧ canonical r) := by
  refine ⟨?_, ?_, ?_⟩
  · intro q hq
    unfold divide at hq
    cases hdu : div u d initCache with
    | error e => rw [hdu] at hq; exact absurd hq (by simp [Except.map])
    | ok z =>
        rw [hdu] at hq
        simp only [Except.map, Except.ok.injEq] at hq
        exact hq ▸ div_ok_canonical u d initCache hu z hdu
  · intro r hr
    unfold remainder at hr
    cases hdu : rem u d initCache with
    | error e => rw [hdu] at hr; exact absurd hr (by simp [Except.map])
    | ok z =>
        rw [hdu] at hr
        simp only [Except.map, Except.ok.injEq] at hr
        exact hr ▸ rem_ok_canonical u d initCache hu z hdu
  · intro q r hqr
    unfold divide_with_remainder at hqr
    cases hdu : div_rem u d initCache with
    | error e => rw [hdu] at hqr; exact absurd hqr (by simp [Except.map])
    | ok z =>
        rw [hdu] at hqr
        simp only [Except.map, Except.ok.injEq] at hqr
        have h12 := div_rem_ok_canonical u d initCache hu z hdu
        have hq : z.1.1 = q := congrArg Prod.fst hqr
        have hr : z.1.2 = r := congrArg Prod.snd hqr
        exact ⟨hq ▸ h12.1, hr ▸ h12.2⟩

/-- Witness for C5 at the concrete canonical inputs `u = 123`, `d = 456`. -/
theorem c5_results_canonical_witness :
    canonical ([] : Digits) ∧ canonical [123] :=
  ⟨(c5_results_canonical [123] [456] (by decide) (by decide) (by decide)).1 []
      (by decide),
   (c5_results_canonical [123] [456] (by decide) (by decide) (by decide)).2.1 [123]
      (by decide)⟩

/-! ## Newton iteration correctness (for C7)

Each Newton step `w ← w * (2 - x * w)` doubles the number of correct low
bits of the inverse; the divisibility formulation over ℤ below captures
one step with truncation to `2 ** e` bits. -/

lemma bitLenAux_lt : ∀ fuel v, v ≤ fuel → v < 2 ^ bitLenAux fuel v := by
  intro fuel
  induction fuel with
  | zero => intro v hv; interval_cases v; simp [bitLenAux]
  | succ f ih =>
      intro v hv
      unfold bitLenAux
      by_cases h0 : v = 0
      · simp [h0]
      · rw [if_neg h0]
        have hlt : v / 2 < v := Nat.div_lt_self (Nat.pos_of_ne_zero h0) one_lt_two
        have hdiv := ih (v / 2) (by omega)
        have hmod := Nat.div_add_mod v 2
        have h2 : v % 2 < 2 := Nat.mod_lt _ (by norm_num)
        rw [pow_succ]
        omega

lemma bitLen_lt (v : ℕ) : v < 2 ^ bitLen v := bitLenAux_lt v v le_rfl

lemma ceilLog2_ge (n : ℕ) : n ≤ 2 ^ ceilLog2 n := by
  unfold ceilLog2
  have := bitLen_lt (n - 1)
  omega

lemma lt_bitLen_of_le {j m : ℕ} (h : 2 ^ j ≤ m) : j < bitLen m := by
  by_contra hle
  push_neg at hle
  have h1 := bitLen_lt m
  have h2 : (2 : ℕ) ^ bitLen m ≤ 2 ^ j := Nat.pow_le_pow_right (by norm_num) hle
  omega

lemma B_pow (len : ℕ) : B ^ len = 2 ^ (64 * len) := by
  unfold B; rw [← pow_mul]

/-- One Newton step with truncation: if `t` agrees with `2 - q * w` modulo
`2 ** e` and `q * w` is `1` modulo `2 ** k`, then `q * (w * t mod 2 ** e)`
is `1` modulo `2 ** min (2 k) e`. -/
lemma newton_double (q w t e k : ℕ) (hk : k ≤ e)
    (ht : (2 : ℤ) ^ e ∣ ((t : ℤ) - (2 - (q : ℤ) * w)))
    (hw : (2 : ℤ) ^ k ∣ ((q : ℤ) * w - 1)) :
    (2 : ℤ) ^ min (2 * k) e ∣ ((q : ℤ) * ((w * t % 2 ^ e : ℕ) : ℤ) - 1) := by
  have hmod := Nat.mod_add_div (w * t) (2 ^ e)
  have hsplit : ((w * t % 2 ^ e : ℕ) : ℤ)
      = (w : ℤ) * t - (2 : ℤ) ^ e * ((w * t / 2 ^ e : ℕ) : ℤ) := by
    have hz : ((w * t % 2 ^ e : ℕ) : ℤ) + (2 : ℤ) ^ e * ((w * t / 2 ^ e : ℕ) : ℤ)
        = (w : ℤ) * t := by exact_mod_cast hmod
    linarith
  have hkey : (q : ℤ) * ((w * t % 2 ^ e : ℕ) : ℤ) - 1
      = (-1) * ((q : ℤ) * w - 1) ^ 2
        + ((q : ℤ) * w) * ((t : ℤ) - (2 - (q : ℤ) * w))
        - (2 : ℤ) ^ e * ((q : ℤ) * ((w * t / 2 ^ e : ℕ) : ℤ)) := by
    rw [hsplit]; ring
  rw [hkey]
  have d1 : (2 : ℤ) ^ min (2 * k) e ∣ ((q : ℤ) * w - 1) ^ 2 := by
    calc (2 : ℤ) ^ min (2 * k) e ∣ (2 : ℤ) ^ (2 * k) :=
          pow_dvd_pow 2 (min_le_left _ _)
      _ ∣ ((q : ℤ) * w - 1) ^ 2 := by
          rw [two_mul, pow_add, sq]
          exact mul_dvd_mul hw hw
  have d2 : (2 : ℤ) ^ min (2 * k) e ∣ ((q : ℤ) * w) * ((t : ℤ) - (2 - (q : ℤ) * w)) :=
    dvd_mul_of_dvd_right ((pow_dvd_pow 2 (min_le_right (2 * k) e)).trans ht) _
  have d3 : (2 : ℤ) ^ min (2 * k) e ∣
      (2 : ℤ) ^ e * ((q : ℤ) * ((w * t / 2 ^ e : ℕ) : ℤ)) :=
    dvd_mul_of_dvd_left (pow_dvd_pow 2 (min_le_right (2 * k) e)) _
  exact dvd_sub (dvd_add (Dvd.dvd.mul_left d1 _) d2) d3

/-- The remainder formula used by `mod_inv1`: the step value
`(2 + B - q * w % B) % B` agrees with `2 - q * w` modulo `2 ** 64`. -/
lemma newton1_t_dvd (q w : ℕ) :
    (2 : ℤ) ^ 64 ∣ ((((2 + B - q * w % B) % B : ℕ) : ℤ) - (2 - (q : ℤ) * w)) := by
  have hle : q * w % B ≤ 2 + B := le_of_lt (by
    have := Nat.mod_lt (q * w) (show 0 < B by unfold B; positivity)
    omega)
  have hm1 := Nat.mod_add_div (2 + B - q * w % B) B
  have hm2 := Nat.mod_add_div (q * w) B
  have hz1 : (((2 + B - q * w % B) % B : ℕ) : ℤ)
      + (B : ℤ) * (((2 + B - q * w % B) / B : ℕ) : ℤ)
      = 2 + (B : ℤ) - ((q * w % B : ℕ) : ℤ) := by
    have hz0 : (((2 + B - q * w % B) % B : ℕ) : ℤ)
        + (B : ℤ) * (((2 + B - q * w % B) / B : ℕ) : ℤ)
        = ((2 + B - q * w % B : ℕ) : ℤ) := by exact_mod_cast hm1
    have hz3 : ((2 + B - q * w % B : ℕ) : ℤ)
        = 2 + (B : ℤ) - ((q * w % B : ℕ) : ℤ) := by
      rw [Nat.cast_sub hle]; push_cast; try ring
    rw [hz0, hz3]
  have hz2 : ((q * w % B : ℕ) : ℤ) + (B : ℤ) * ((q * w / B : ℕ) : ℤ)
      = (q : ℤ) * w := by exact_mod_cast hm2
  have hBe : (B : ℤ) = (2 : ℤ) ^ 64 := by unfold B; push_cast; try ring
  refine ⟨1 + ((q * w / B : ℕ) : ℤ) - (((2 + B - q * w % B) / B : ℕ) : ℤ), ?_⟩
  rw [← hBe]
  linear_combination hz1 - hz2

/-- The remainder formula used by `mod_invn`: the step value
`((M - x * w % M) % M + 2) % M` agrees with `2 - x * w` modulo `M = 2 ** e`. -/
lemma newtonN_t_dvd (x w e : ℕ) :
    (2 : ℤ) ^ e ∣
      (((((2 ^ e - x * w % 2 ^ e) % 2 ^ e + 2) % 2 ^ e : ℕ) : ℤ)
        - (2 - (x : ℤ) * w)) := by
  set M : ℕ := 2 ^ e with hM
  have hMpos : 0 < M := by positivity
  have hle : x * w % M ≤ M := le_of_lt (Nat.mod_lt _ hMpos)
  have hm0 := Nat.mod_add_div (x * w) M
  have hm1 := Nat.mod_add_div (M - x * w % M) M
  have hm2 := Nat.mod_add_div ((M - x * w % M) % M + 2) M
  have hz0 : ((x * w % M : ℕ) : ℤ) + (M : ℤ) * ((x * w / M : ℕ) : ℤ)
      = (x : ℤ) * w := by exact_mod_cast hm0
  have hz1 : (((M - x * w % M) % M : ℕ) : ℤ)
      + (M : ℤ) * (((M - x * w % M) / M : ℕ) : ℤ)
      = (M : ℤ) - ((x * w % M : ℕ) : ℤ) := by
    have h := hm1
    have hz : (((M - x * w % M) % M : ℕ) : ℤ)
        + (M : ℤ) * (((M - x * w % M) / M : ℕ) : ℤ)
        = ((M - x * w % M : ℕ) : ℤ) := by exact_mod_cast h
    rw [hz, Nat.cast_sub hle]
  have hz2 : ((((M - x * w % M) % M + 2) % M : ℕ) : ℤ)
      + (M : ℤ) * ((((M - x * w % M) % M + 2) / M : ℕ) : ℤ)
      = (((M - x * w % M) % M : ℕ) : ℤ) + 2 := by exact_mod_cast hm2
  have hMe : ((M : ℕ) : ℤ) = (2 : ℤ) ^ e := by rw [hM]; push_cast; ring
  refine ⟨1 + ((x * w / M : ℕ) : ℤ) - (((M - x * w % M) / M : ℕ) : ℤ)
      - ((((M - x * w % M) % M + 2) / M : ℕ) : ℤ), ?_⟩
  rw [← hMe]
  linear_combination hz2 + hz1 - hz0

/-- One `newton1` step at least doubles the number of correct bits of the
inverse, up to the 64-bit word size. -/
lemma newton1_dvd (q w k : ℕ) (hk : k ≤ 64)
    (hw : (2 : ℤ) ^ k ∣ ((q : ℤ) * w - 1)) :
    (2 : ℤ) ^ min (2 * k) 64 ∣ ((q : ℤ) * (newton1 q w) - 1) := by
  have h := newton_double q w ((2 + B - q * w % B) % B) 64 k hk (newton1_t_dvd q w) hw
  have he : newton1 q w = w * ((2 + B - q * w % B) % B) % 2 ^ 64 := rfl
  rw [he]
  exact h

/-- The seed `q` is a 3-bit inverse of an odd `q`. -/
lemma seed_dvd (q : ℕ) (hq : q < B) (hodd : q % 2 = 1) :
    (2 : ℤ) ^ 3 ∣ ((q : ℤ) * ((q % B : ℕ) : ℤ) - 1) := by
  rw [Nat.mod_eq_of_lt hq]
  have h8 : q * q % 8 = 1 := by
    have hq8 : q % 8 < 8 := Nat.mod_lt _ (by norm_num)
    have hqo : q % 8 % 2 = 1 := by omega
    have hmul : q * q % 8 = q % 8 * (q % 8) % 8 := by
      rw [Nat.mul_mod]
    rw [hmul]
    interval_cases h : q % 8 <;> simp_all
  have hge : 1 ≤ q * q := by nlinarith [Nat.pos_of_ne_zero (by omega : q ≠ 0)]
  have : (8 : ℕ) ∣ q * q - 1 := by omega
  have hz : ((8 : ℕ) : ℤ) ∣ ((q * q - 1 : ℕ) : ℤ) := Int.natCast_dvd_natCast.mpr this
  rw [Nat.cast_sub hge] at hz
  push_cast at hz
  have h23 : (2 : ℤ) ^ 3 = 8 := by norm_num
  rw [h23]
  exact hz

/-- Correctness of the modelled `mod_inv1`: for every odd 64-bit digit `q`,
the computed inverse satisfies `q * w = 1 (mod 2 ** 64)`. -/
lemma mod_inv1_correct (q : ℕ) (hq : q < B) (hodd : q % 2 = 1) :
    q * mod_inv1 q % B = 1 := by
  have h0 := seed_dvd q hq hodd
  have h1 := newton1_dvd q (q % B) 3 (by norm_num) h0
  norm_num at h1
  have h2 := newton1_dvd q (newton1 q (q % B)) 6 (by norm_num) h1
  norm_num at h2
  have h3 := newton1_dvd q (newton1 q (newton1 q (q % B))) 12 (by norm_num) h2
  norm_num at h3
  have h4 := newton1_dvd q (newton1 q (newton1 q (newton1 q (q % B)))) 24 (by norm_num) h3
  norm_num at h4
  have h5 := newton1_dvd q (newton1 q (newton1 q (newton1 q (newton1 q (q % B))))) 48
    (by norm_num) h4
  norm_num at h5
  have hfin : (2 : ℤ) ^ 64 ∣ ((q : ℤ) * (mod_inv1 q) - 1) := h5
  have hlt : q * mod_inv1 q % B < B := Nat.mod_lt _ (by unfold B; positivity)
  have hmc := Nat.mod_add_div (q * mod_inv1 q) B
  have hz : ((q * mod_inv1 q % B : ℕ) : ℤ) + (B : ℤ) * ((q * mod_inv1 q / B : ℕ) : ℤ)
      = (q : ℤ) * (mod_inv1 q) := by exact_mod_cast hmc
  have hBe : (B : ℤ) = (2 : ℤ) ^ 64 := by unfold B; push_cast; try ring
  have hdvd : (2 : ℤ) ^ 64 ∣ (((q * mod_inv1 q % B : ℕ) : ℤ) - 1) := by
    have : ((q * mod_inv1 q % B : ℕ) : ℤ) - 1
        = ((q : ℤ) * (mod_inv1 q) - 1) - (2 : ℤ) ^ 64 * ((q * mod_inv1 q / B : ℕ) : ℤ) := by
      rw [← hBe]; linarith
    rw [this]
    exact dvd_sub hfin (Dvd.intro _ rfl)
  have habs : ((q * mod_inv1 q % B : ℕ) : ℤ) = 1 := by
    rcases hdvd with ⟨c, hc⟩
    have hc1 : ((q * mod_inv1 q % B : ℕ) : ℤ) = 1 + 2 ^ 64 * c := by linarith
    have hnn : (0 : ℤ) ≤ ((q * mod_inv1 q % B : ℕ) : ℤ) := Int.natCast_nonneg _
    have hup : ((q * mod_inv1 q % B : ℕ) : ℤ) < 2 ^ 64 := by
      have : ((q * mod_inv1 q % B : ℕ) : ℤ) < (B : ℤ) := by exact_mod_cast hlt
      rwa [hBe] at this
    have hc0 : c = 0 := by nlinarith
    rw [hc1, hc0]; ring
  exact_mod_cast habs

/-- Invariant of the `mod_invn` Newton loop: `i` iterations multiply the
number of correct bits by `2 ** i`, up to the full width `e`. -/
lemma modInvnLoop_dvd (xv e : ℕ) :
    ∀ (i w k : ℕ), k ≤ e → (2 : ℤ) ^ k ∣ ((xv : ℤ) * w - 1) →
      (2 : ℤ) ^ min (k * 2 ^ i) e ∣ ((xv : ℤ) * (modInvnLoop xv (2 ^ e) i w) - 1) := by
  intro i
  induction i with
  | zero =>
      intro w k hk hw
      simpa [modInvnLoop, pow_zero, mul_one, min_eq_left hk] using hw
  | succ i ih =>
      intro w k hk hw
      have hstep := newton_double xv w (((2 ^ e - xv * w % 2 ^ e) % 2 ^ e + 2) % 2 ^ e)
        e k hk (newtonN_t_dvd xv w e) hw
      have hloop : modInvnLoop xv (2 ^ e) (i + 1) w
          = modInvnLoop xv (2 ^ e)
              i (w * ((((2 ^ e - xv * w % 2 ^ e) % 2 ^ e + 2) % 2 ^ e)) % 2 ^ e) := rfl
      rw [hloop]
      have hk2 : min (2 * k) e ≤ e := min_le_right _ _
      have hnext := ih _ (min (2 * k) e) hk2 hstep
      refine dvd_trans (pow_dvd_pow 2 ?_) hnext
      rcases min_cases (2 * k) e with ⟨hmin, hle2⟩ | ⟨hmin, hle2⟩
      · rw [hmin]
        have : k * 2 ^ (i + 1) = 2 * k * 2 ^ i := by ring
        rw [this]
      · rw [hmin]
        have h1 : e ≤ e * 2 ^ i := Nat.le_mul_of_pos_right e (Nat.pos_pow_of_pos i (by norm_num))
        have h2 : min (e * 2 ^ i) e = e := min_eq_right h1
        rw [h2]
        exact min_le_right _ _

/-- A natural whose distance to 1 is a multiple of `2 ** e` is `1` modulo
`2 ** e`. -/
lemma mod_eq_one_of_dvd (a e : ℕ) (h : (2 : ℤ) ^ e ∣ ((a : ℤ) - 1)) :
    a % 2 ^ e = 1 % 2 ^ e := by
  have h1 : (1 : ℤ) ≡ (a : ℤ) [ZMOD ((2 ^ e : ℕ) : ℤ)] := by
    rw [Int.modEq_iff_dvd]
    have : ((a : ℤ)) - 1 = (a : ℤ) - 1 := rfl
    push_cast
    exact h
  have h2 : (a : ℤ) ≡ (1 : ℤ) [ZMOD ((2 ^ e : ℕ) : ℤ)] := h1.symm
  have h3 : a ≡ 1 [MOD 2 ^ e] := Int.natCast_modEq_iff.mp (by exact_mod_cast h2)
  exact h3

/-- Correctness of `mod_invn`: for an odd multi-digit `x`, the computed
inverse satisfies `x * w = 1 (mod 2 ** (64 * len x))`. -/
lemma mod_invn_correct (x : Digits) (hlen : 2 ≤ x.length)
    (hdig : ∀ a ∈ x, a < B) (hodd : val x % 2 = 1) :
    val x * mod_invn x % 2 ^ (64 * x.length) = 1 := by
  obtain ⟨d, rest, rfl⟩ : ∃ d rest, x = d :: rest := by
    cases x with
    | nil => simp at hlen
    | cons d rest => exact ⟨d, rest, rfl⟩
  have hd_lt : d < B := hdig d (by simp)
  have hB2 : (2 : ℕ) ∣ B := ⟨2 ^ 63, by unfold B; ring⟩
  have hdodd : d % 2 = 1 := by
    have hval : val (d :: rest) = d + B * val rest := rfl
    have h2 : (2 : ℕ) ∣ B * val rest := hB2.mul_right _
    omega
  set len := (d :: rest).length with hlenEq
  set xv := val (d :: rest) with hxv
  have hlen1 : 1 ≤ len := by omega
  -- seed is a 64-bit inverse of the full value
  have hseedZ : (2 : ℤ) ^ 64 ∣ ((xv : ℤ) * (mod_inv1 d) - 1) := by
    have hseed := mod_inv1_correct d hd_lt hdodd
    have hge : 1 ≤ d * mod_inv1 d := by
      rcases Nat.eq_zero_or_pos (d * mod_inv1 d) with h | h
      · rw [h] at hseed
        simp at hseed
      · exact h
    have hnat : B ∣ d * mod_inv1 d - 1 := by
      have hmod := Nat.mod_add_div (d * mod_inv1 d) B
      exact ⟨d * mod_inv1 d / B, by omega⟩
    have hz : ((B : ℕ) : ℤ) ∣ ((d * mod_inv1 d - 1 : ℕ) : ℤ) :=
      Int.natCast_dvd_natCast.mpr hnat
    rw [Nat.cast_sub hge] at hz
    have hBe : ((B : ℕ) : ℤ) = (2 : ℤ) ^ 64 := by unfold B; push_cast; try ring
    rw [hBe] at hz
    push_cast at hz
    have hsplit : (xv : ℤ) * (mod_inv1 d) - 1
        = ((d : ℤ) * (mod_inv1 d) - 1)
          + (2 : ℤ) ^ 64 * (((val rest : ℕ) : ℤ) * (mod_inv1 d)) := by
      have hv : (xv : ℤ) = (d : ℤ) + ((B : ℕ) : ℤ) * ((val rest : ℕ) : ℤ) := by
        rw [hxv]
        show ((d + B * val rest : ℕ) : ℤ) = _
        push_cast
        try ring
      rw [hv, hBe]
      ring
    rw [hsplit]
    exact dvd_add hz (Dvd.intro _ rfl)
  -- iterate the loop
  set L := ceilLog2 (len * 64) with hL
  have hL6 : 6 ≤ L := by
    have h32 : 2 ^ 5 ≤ len * 64 - 1 := by omega
    have := lt_bitLen_of_le h32
    rw [hL]
    unfold ceilLog2
    omega
  have h2L : len * 64 ≤ 2 ^ L := ceilLog2_ge _
  have hloop := modInvnLoop_dvd xv (64 * len) (L - 6) (mod_inv1 d) 64
    (by nlinarith) hseedZ
  have hminEq : min (64 * 2 ^ (L - 6)) (64 * len) = 64 * len := by
    have hsplitL : 2 ^ L = 2 ^ 6 * 2 ^ (L - 6) := by
      rw [← pow_add]
      congr 1
      omega
    have : len * 64 ≤ 2 ^ 6 * 2 ^ (L - 6) := by omega
    have h64 : (2 : ℕ) ^ 6 = 64 := by norm_num
    rw [h64] at this
    exact min_eq_right (by omega)
  rw [hminEq] at hloop
  -- fold in the final reduction of mod_invn
  have hM := Nat.mod_add_div (modInvnLoop xv (2 ^ (64 * len)) (L - 6) (mod_inv1 d))
    (2 ^ (64 * len))
  have hfin : (2 : ℤ) ^ (64 * len) ∣ ((xv : ℤ) * (mod_invn (d :: rest)) - 1) := by
    have hunf : mod_invn (d :: rest)
        = modInvnLoop xv (B ^ len) (L - 6) (mod_inv1 d) % B ^ len := rfl
    rw [B_pow len] at hunf
    rw [hunf]
    set T := modInvnLoop xv (2 ^ (64 * len)) (L - 6) (mod_inv1 d) with hT
    have hcast : ((T % 2 ^ (64 * len) : ℕ) : ℤ) + ((2 : ℤ)) ^ (64 * len) * ((T / 2 ^ (64 * len) : ℕ) : ℤ)
        = (T : ℤ) := by exact_mod_cast hM
    have : (xv : ℤ) * ((T % 2 ^ (64 * len) : ℕ) : ℤ) - 1
        = ((xv : ℤ) * T - 1)
          - (2 : ℤ) ^ (64 * len) * ((xv : ℤ) * ((T / 2 ^ (64 * len) : ℕ) : ℤ)) := by
      linear_combination (xv : ℤ) * hcast
    rw [this]
    exact dvd_sub hloop (Dvd.intro _ rfl)
  have := mod_eq_one_of_dvd (xv * mod_invn (d :: rest)) (64 * len) (by push_cast at hfin ⊢; exact hfin)
  have h1m : 1 % 2 ^ (64 * len) = 1 :=
    Nat.mod_eq_of_lt (Nat.one_lt_two_pow (by omega))
  rw [h1m] at this
  exact this

/-- C7: for every odd multi-digit x with 64-bit digits, the Montgomery
inverse w computed by mod_invn satisfies `(x * w) mod 2 ** (64 * len x) = 1`;
in particular for every odd single digit q the computed one-digit inverse
satisfies `(q * w) mod 2 ** 64 = 1`. -/
theorem c7_mod_invn_inverse :
    (∀ x : Digits, 2 ≤ x.length → (∀ a ∈ x, a < B) → val x % 2 = 1 →
      val x * mod_invn x % 2 ^ (64 * x.length) = 1) ∧
    (∀ q : ℕ, q < B → q % 2 = 1 → q * mod_inv1 q % B = 1) :=
  ⟨mod_invn_correct, mod_inv1_correct⟩

/-- Witness for C7 at `x = [3, 5]` (value `3 + 5 * 2 ** 64`, odd) and the
single digit `q = 7`. -/
theorem c7_mod_invn_inverse_witness :
    val [3, 5] * mod_invn [3, 5] % 2 ^ (64 * 2) = 1 ∧ 7 * mod_inv1 7 % B = 1 :=
  ⟨c7_mod_invn_inverse.1 [3, 5] (by decide) (by decide) (by decide),
   c7_mod_invn_inverse.2 7 (by decide) (by decide)⟩

/-! ## Cache independence (for C10) -/

/-- A cache is well formed when it is fresh or holds exactly the Montgomery
context derived from its stored divisor. -/
def CacheWF (c : Cache) : Prop :=
  c.w = [] ∨ (c.winv = mod_invn c.w
    ∧ c.basepow = radix_power_n c.w.length c.w (mod_invn c.w))

lemma cacheWF_init : CacheWF initCache := Or.inl rfl

lemma digitsOf_ne_nil {v : ℕ} (hv : v ≠ 0) : digitsOf v ≠ [] := fun h =>
  hv ((digitsAux_eq_nil le_rfl).mp h)

lemma tzAux_pow_le : ∀ fuel v, v ≠ 0 → v ≤ fuel → 2 ^ tzAux fuel v ≤ v := by
  intro fuel
  induction fuel with
  | zero => intro v hv hle; omega
  | succ f ih =>
      intro v hv hle
      unfold tzAux
      by_cases h : v % 2 = 1 ∨ v = 0
      · rw [if_pos h]; simpa using Nat.pos_of_ne_zero hv
      · rw [if_neg h]
        push_neg at h
        have hv2 : v / 2 ≠ 0 := by omega
        have hle2 : v / 2 ≤ f := by omega
        have := ih (v / 2) hv2 hle2
        rw [pow_succ]
        omega

lemma tzV_pow_le (v : ℕ) (hv : v ≠ 0) : 2 ^ tzV v ≤ v :=
  tzAux_pow_le v v hv le_rfl

lemma cacheLookup_fields (c : Cache) (w : Digits) (hWF : CacheWF c) (hw : w ≠ []) :
    (cacheLookup c w).winv = mod_invn w ∧
    (cacheLookup c w).basepow = radix_power_n w.length w (mod_invn w) := by
  unfold cacheLookup
  by_cases h : c.w = w
  · rw [if_neg (by simpa using h)]
    rcases hWF with hnil | ⟨h1, h2⟩
    · exact absurd (hnil ▸ h) (by simpa using hw.symm)
    · exact ⟨h ▸ h1, h ▸ h2⟩
  · rw [if_pos (by simpa using h)]
    exact ⟨rfl, rfl⟩

lemma cacheLookup_wf (c : Cache) (w : Digits) (hWF : CacheWF c) :
    CacheWF (cacheLookup c w) := by
  unfold cacheLookup
  split_ifs with h
  · exact Or.inr ⟨rfl, rfl⟩
  · exact hWF

/-- The results of the Montgomery core do not depend on the incoming cache,
as long as it is well formed: a cache hit returns exactly the values a
recomputation would produce. -/
lemma inner_result_eq (x y : Digits) (wd wr : Bool) (c : Cache)
    (hWF : CacheWF c) (hy : val y ≠ 0) :
    (div_rem_mont_inner x y wd wr c).1 = (div_rem_mont_inner x y wd wr initCache).1 := by
  unfold div_rem_mont_inner
  dsimp only
  split_ifs with h1 h2 h3 <;> try rfl
  case _ h2 h3 =>
    -- shifted-divisor core branch
    have hw : digitsOf (val y / 2 ^ tzV (val y)) ≠ [] := by
      apply digitsOf_ne_nil
      have := tzV_pow_le (val y) hy
      exact (Nat.div_pos this (by positivity)).ne'
    have hc := cacheLookup_fields c _ hWF hw
    have hi := cacheLookup_fields initCache _ cacheWF_init hw
    rw [hc.1, hc.2, hi.1, hi.2]
  case _ h2 h3 =>
    -- unshifted-divisor core branch
    have hw : y ≠ [] := by
      intro hnil
      rw [hnil] at hy
      exact hy rfl
    have hc := cacheLookup_fields c _ hWF hw
    have hi := cacheLookup_fields initCache _ cacheWF_init hw
    rw [hc.1, hc.2, hi.1, hi.2]

lemma inner_cacheWF (x y : Digits) (wd wr : Bool) (c : Cache) (hWF : CacheWF c) :
    CacheWF (div_rem_mont_inner x y wd wr c).2 := by
  unfold div_rem_mont_inner
  dsimp only
  split_ifs <;> first
    | exact hWF
    | exact cacheLookup_wf c _ hWF

lemma div_rem_result_eq (u d : Digits) (c : Cache) (hWF : CacheWF c) :
    (div_rem u d c).map (fun z => z.1) = (div_rem u d initCache).map (fun z => z.1) := by
  unfold div_rem
  split_ifs with h0 <;> try rfl
  cases hcmp : compare (val u) (val d) <;> simp only [hcmp] <;> try rfl
  have h := inner_result_eq u d true true c hWF h0
  simp only [Except.map]
  rw [h]

lemma div_result_eq (u d : Digits) (c : Cache) (hWF : CacheWF c) :
    (div u d c).map (fun z => z.1) = (div u d initCache).map (fun z => z.1) := by
  unfold div
  split_ifs with h0 <;> try rfl
  cases hcmp : compare (val u) (val d) <;> simp only [hcmp] <;> try rfl
  have h := inner_result_eq u d true false c hWF h0
  simp only [Except.map]
  rw [h]

lemma rem_result_eq (u d : Digits) (c : Cache) (hWF : CacheWF c) :
    (rem u d c).map (fun z => z.1) = (rem u d initCache).map (fun z => z.1) := by
  unfold rem
  split_ifs with h0 <;> try rfl
  cases hcmp : compare (val u) (val d) <;> simp only [hcmp] <;> try rfl
  have h := inner_result_eq u d false true c hWF h0
  simp only [Except.map]
  rw [h]

lemma div_rem_cacheWF (u d : Digits) (c : Cache) (hWF : CacheWF c)
    (r : (Digits × Digits) × Cache) (hr : div_rem u d c = .ok r) : CacheWF r.2 := by
  unfold div_rem at hr
  split_ifs at hr <;> try (cases hr; exact hWF)
  cases hcmp : compare (val u) (val d) <;> simp only [hcmp] at hr <;> cases hr <;>
    first
      | exact hWF
      | exact inner_cacheWF u d true true c hWF

lemma div_cacheWF (u d : Digits) (c : Cache) (hWF : CacheWF c)
    (r : Digits × Cache) (hr : div u d c = .ok r) : CacheWF r.2 := by
  unfold div at hr
  split_ifs at hr <;> try (cases hr; exact hWF)
  cases hcmp : compare (val u) (val d) <;> simp only [hcmp] at hr <;> cases hr <;>
    first
      | exact hWF
      | exact inner_cacheWF u d true false c hWF

lemma rem_cacheWF (u d : Digits) (c : Cache) (hWF : CacheWF c)
    (r : Digits × Cache) (hr : rem u d c = .ok r) : CacheWF r.2 := by
  unfold rem at hr
  split_ifs at hr <;> try (cases hr; exact hWF)
  cases hcmp : compare (val u) (val d) <;> simp only [hcmp] at hr <;> cases hr <;>
    first
      | exact hWF
      | exact inner_cacheWF u d false true c hWF

lemma reachable_wf {c : Cache} (h : Reachable c) : CacheWF c := by
  induction h with
  | init => exact cacheWF_init
  | stepDivRem u d c r hc hr ih => exact div_rem_cacheWF u d c ih r hr
  | stepDiv u d c r hc hr ih => exact div_cacheWF u d c ih r hr
  | stepRem u d c r hc hr ih => exact rem_cacheWF u d c ih r hr

/-- C10: the value returned by divide_with_remainder depends only on the
operands.  Two calls of div_rem on the same `(u, d)` return the same
quotient and remainder whatever cache contents (divisor, inverse, base
power) earlier divisions left behind in the two contexts. -/
theorem c10_cache_independence (u d : Digits) (c₁ c₂ : Cache)
    (h₁ : Reachable c₁) (h₂ : Reachable c₂) :
    (div_rem u d c₁).map (fun z => z.1) = (div_rem u d c₂).map (fun z => z.1) := by
  rw [div_rem_result_eq u d c₁ (reachable_wf h₁),
    div_rem_result_eq u d c₂ (reachable_wf h₂)]

/-- Witness for C10: dividing `2 ** 128 + huge` by the odd two-digit
`3 + 5 * 2 ** 64` gives the same result on a fresh context and on a context
whose cache was left behind by an earlier division with other operands. -/
theorem c10_cache_independence_witness :
    (div_rem [7, 8, 9] [3, 5]
        ((div_rem [0, 0, 1] [3, 5] initCache).toOption.getD (([], []), initCache)).2).map
        (fun z => z.1)
      = (div_rem [7, 8, 9] [3, 5] initCache).map (fun z => z.1) :=
  c10_cache_independence [7, 8, 9] [3, 5] _ initCache
    (Reachable.stepDivRem [0, 0, 1] [3, 5] initCache _ Reachable.init (by rfl))
    Reachable.init

/-! ## Concrete refutations

The digit lists below are little endian; the first input is the concrete
scenario `364131549958466711308970009901738230041 / 19437941122649628431`
from the specification (also asserted by the test suite of the source),
which exercises the chunked Montgomery core (3-digit dividend, 2-digit odd
divisor). -/

/-- C1: refuted on the code.  On the spec scenario
`u = 364131549958466711308970009901738230041` (digits as below) and
`d = 19437941122649628431`, divide_with_remainder returns
`q = 1422860376134772965`, `r = 4048956907862532270`, and these violate the
defining contract: `u` differs from `q * d + r` (the fold loop of the core
never updates the high half of its product buffer, and the quotient pass
writes chunks at the wrong offsets). -/
theorem c1_div_rem_contract_violated :
    (div_rem [16347644731148730649, 1292866803064628396, 1]
        [991197048940076815, 1] initCache).map (fun z => z.1)
      = .ok ([1422860376134772965], [4048956907862532270])
    ∧ ¬ (val [16347644731148730649, 1292866803064628396, 1]
          = val [1422860376134772965] * val [991197048940076815, 1]
            + val [4048956907862532270]) := by
  constructor
  · decide
  · decide

/-- C2: refuted on the code.  For `u = 2 ** 128`, `d = 2 ** 65 + 2` (even,
with a two-digit odd part), remainder returns the unshifted odd-part residue
`9223372036854775809` while divide_with_remainder returns the remainder
`18446744073709551618`: the early return of the remainder-only path skips
the even-divisor restoration `(r << nshift) + saved_bits`. -/
theorem c2_rem_disagrees_with_div_rem :
    (rem [0, 0, 1] [2, 2] initCache).map (fun z => z.1) = .ok [9223372036854775809]
    ∧ (div_rem [0, 0, 1] [2, 2] initCache).map (fun z => z.1.2) = .ok [2, 1]
    ∧ ([9223372036854775809] : Digits) ≠ [2, 1] := by
  refine ⟨by decide, by decide, by decide⟩

/-- C3: refuted on the code.  At `x = 2`, `y = 1` the bit-serial algorithm
returns `(1, 1)` (its loop subtracts only on strict excess, so it stops one
step short on exact division) while the Knuth algorithm and the Montgomery
path both return `(2, 0)`. -/
theorem c3_algorithms_disagree :
    div_rem_binary [2] [1] = ([1], [1])
    ∧ div_rem_knuth [2] [1] = ([2], [])
    ∧ (div_rem_mont_inner [2] [1] true true initCache).1 = (some [2], some [])
    ∧ div_rem_binary [2] [1] ≠ div_rem_knuth [2] [1] := by
  refine ⟨by decide, by decide, by decide, by decide⟩

/-- C6: refuted on the code.  For the odd digit `q = 2873692229` (between
`2 ** 31` and `2 ** 32`) with its correct inverse mod `2 ** 64`, and the
one-digit dividend `x = 123456789`, the variants disagree: remainder_a and
remainder_a_u2 return `2408680139` while remainder_b returns the correct
`x mod q = 123456789` (radix_power2_32 mis-detects the sign bit for moduli
above `2 ** 31`). -/
theorem c6_remainder_variants_disagree :
    (2873692229 * mod_inv1 2873692229) % B = 1
    ∧ remainder_a [123456789] 2873692229 (mod_inv1 2873692229) = 2408680139
    ∧ remainder_a_u2 [123456789] 2873692229 (mod_inv1 2873692229) = 2408680139
    ∧ remainder_b [123456789] 2873692229 (mod_inv1 2873692229) = 123456789
    ∧ val [123456789] % 2873692229 = 123456789
    ∧ remainder_a [123456789] 2873692229 (mod_inv1 2873692229)
        ≠ remainder_b [123456789] 2873692229 (mod_inv1 2873692229) := by
  refine ⟨by decide, by decide, by decide, by decide, by decide, by decide⟩

/-- C8: refuted on the code.  For the odd digit `q = 2147549185` (between
`2 ** 31` and `2 ** 32`) with its correct inverse mod `2 ** 64`,
`radix_power 2 q qinv` returns `2145976290` instead of
`2 ** 128 mod q = 16`: the sign-bit correction of radix_power2_32 is wrong
for such moduli.  (The specific scenario `radix_power 17` at
`q = 16357897499336320049` does hold; see the example after radix_power.) -/
theorem c8_radix_power_wrong :
    (2147549185 * mod_inv1 2147549185) % B = 1
    ∧ radix_power 2 2147549185 (mod_inv1 2147549185) = 2145976290
    ∧ 2 ^ (64 * 2) % 2147549185 = 16
    ∧ radix_power 2 2147549185 (mod_inv1 2147549185) ≠ 2 ^ (64 * 2) % 2147549185 := by
  refine ⟨by decide, by decide, by decide, by decide⟩

/-- C9: refuted on the code.  For `y = 19131698241266917486964557061389713639`
and `x = 5 * y` (both two digits), the floating estimate is
`4.999999999999999 < 2 ** 54`, so div_rem_small is entered with the truncated
guess 4; the correction loop exits with the remainder exactly equal to the
divisor (its condition is strict), violating the asserted `r < y`. -/
theorem c9_small_path_assertion_violated :
    (fquoOf [6177027872188564611, 5185657199129674074]
        [15992800833405354215, 1037131439825934814]).m
      < 2 ^ (54 + (fquoOf [6177027872188564611, 5185657199129674074]
        [15992800833405354215, 1037131439825934814]).s)
    ∧ div_rem_small [6177027872188564611, 5185657199129674074]
        [15992800833405354215, 1037131439825934814]
        (fquoOf [6177027872188564611, 5185657199129674074]
          [15992800833405354215, 1037131439825934814])
      = ([4], [15992800833405354215, 1037131439825934814])
    ∧ ¬ val [15992800833405354215, 1037131439825934814]
        < val [15992800833405354215, 1037131439825934814] := by
  refine ⟨by decide, by decide, by decide⟩

end BigDiv
